import Mathlib

/-!
Shallow embedding of `lambda_function.py` (email-skeeter): an event-triggered
notifier that extracts transit-alert text from a forwarded email and republishes
it as a thread of bounded-length posts, with byte-accurate hyperlink spans.

Python strings are modelled as Lean `String` (both are sequences of Unicode
scalar values; `len` on a Python `str` equals `String.length`).  Fallible
Python code (exceptions) is modelled with `Option`/`Except`.  Numeric byte
values are modelled as `Nat`.
-/

namespace Skeeter

/-! ### Python character classes

`pyIsSpace` models Python's `str.isspace` (the class used by `str.split()`,
`str.strip()` and the regex class `\s` on text patterns).
`isLineBreakChar` models the set of line boundaries used by `str.splitlines`.
-/

/-- Characters Python treats as whitespace (`str.isspace`). -/
def pyIsSpace (c : Char) : Bool :=
  c.toNat ∈ [32, 9, 10, 13, 11, 12, 28, 29, 30, 31, 0x85, 0xA0, 0x1680,
    0x2000, 0x2001, 0x2002, 0x2003, 0x2004, 0x2005, 0x2006, 0x2007, 0x2008,
    0x2009, 0x200A, 0x2028, 0x2029, 0x202F, 0x205F, 0x3000]

/-- Characters Python's `str.splitlines` treats as line boundaries. -/
def isLineBreakChar (c : Char) : Bool :=
  c.toNat ∈ [10, 13, 11, 12, 28, 29, 30, 0x85, 0x2028, 0x2029]

/-! ### `str.splitlines`, `str.split()`, `str.strip()` -/

/-- Worker for `splitlines`: `acc` holds the current line, reversed.
Mirrors Python `str.splitlines()`: `\r\n` counts as a single boundary and a
trailing boundary does not produce a final empty line. -/
def splitlinesAux : List Char → List Char → List (List Char)
  | [], acc => if acc.isEmpty then [] else [acc.reverse]
  | [c], acc =>
    if isLineBreakChar c then acc.reverse :: splitlinesAux [] []
    else splitlinesAux [] (c :: acc)
  | c :: d :: rest, acc =>
    if isLineBreakChar c then
      if c = '\r' ∧ d = '\n' then acc.reverse :: splitlinesAux rest []
      else acc.reverse :: splitlinesAux (d :: rest) []
    else splitlinesAux (d :: rest) (c :: acc)

/-- Python `text.splitlines()`. -/
def splitlines (s : String) : List String :=
  (splitlinesAux s.data []).map String.mk

/-- Worker for `pySplit`: `acc` holds the current word, reversed. -/
def pySplitAux : List Char → List Char → List String
  | [], acc => if acc.isEmpty then [] else [String.mk acc.reverse]
  | c :: rest, acc =>
    if pyIsSpace c then
      if acc.isEmpty then pySplitAux rest []
      else String.mk acc.reverse :: pySplitAux rest []
    else pySplitAux rest (c :: acc)

/-- Python `text.split()` (split on runs of whitespace, no empty pieces). -/
def pySplit (s : String) : List String := pySplitAux s.data []

/-- Strip `pyIsSpace` characters from the left of a character list. -/
def pyStripLeft (cs : List Char) : List Char := cs.dropWhile pyIsSpace

/-- Strip `pyIsSpace` characters from the right of a character list. -/
def pyStripRight (cs : List Char) : List Char :=
  (cs.reverse.dropWhile pyIsSpace).reverse

/-- Python `str.strip()` on a character list. -/
def pyStripL (cs : List Char) : List Char := pyStripRight (pyStripLeft cs)

/-- Python `str.strip()`. -/
def pyStrip (s : String) : String := String.mk (pyStripL s.data)

/-! ### `split_to_posts` (the text reflower, `lambda_function.py` lines 119-144)

```python
def split_to_posts(text:str, max_len=300) -> list[str]:
    lines = text.splitlines()
    posts = []
    curline = lines[0]
    for line in lines[1:]:
        if len(curline) + len(line) + 1 <= max_len:
            curline += "\n"
            curline += line
        else:
            posts.append(curline)
            if len(line) <= max_len:
                curline = line
            else:
                # split at word boundaries (note: splits the WHOLE text)
                words = text.split()
                curline = words[0]
                for word in words[1:]:
                    if len(curline) + len(word) + 1 <= max_len:
                        curline += " "
                        curline += word
                    else:
                        posts.append(curline)
                        curline = word
    posts.append(curline)
    return posts
```

The two places Python would raise `IndexError` (`lines[0]` on an empty text,
`words[0]` when the whole text is whitespace) are modelled as `none`.
-/

/-- The inner word-accumulation loop of `split_to_posts`. -/
def stpWordLoop (max_len : Nat) (posts : List String) (curline : String) :
    List String → List String × String
  | [] => (posts, curline)
  | w :: ws =>
    if curline.length + w.length + 1 ≤ max_len then
      stpWordLoop max_len posts (curline ++ " " ++ w) ws
    else
      stpWordLoop max_len (posts ++ [curline]) w ws

/-- The outer line-accumulation loop of `split_to_posts`.  `text` is the whole
original input (used by the word-splitting fallback, exactly as the source
does via `text.split()`). -/
def stpLineLoop (text : String) (max_len : Nat) (posts : List String)
    (curline : String) : List String → Option (List String × String)
  | [] => some (posts, curline)
  | line :: ls =>
    if curline.length + line.length + 1 ≤ max_len then
      stpLineLoop text max_len posts (curline ++ "\n" ++ line) ls
    else if line.length ≤ max_len then
      stpLineLoop text max_len (posts ++ [curline]) line ls
    else
      match pySplit text with
      | [] => none
      | w :: ws =>
        let s := stpWordLoop max_len (posts ++ [curline]) w ws
        stpLineLoop text max_len s.1 s.2 ls

/-- `split_to_posts` from the source.  `none` models an uncaught
`IndexError`. -/
def split_to_posts (text : String) (max_len : Nat) : Option (List String) :=
  match splitlines text with
  | [] => none
  | first :: rest =>
    (stpLineLoop text max_len [] first rest).map (fun s => s.1 ++ [s.2])

/-- Joining a chunk list with the newline separator (used to state the
rejoin property; matches how `split_to_posts` separates the lines it
accumulates into one chunk). -/
def joinNL : List String → String
  | [] => ""
  | [x] => x
  | x :: xs => x ++ "\n" ++ joinNL xs

/-! ### UTF-8 encoding and decoding

`extract_url_byte_positions` works on `text.encode('UTF-8')` and decodes each
matched byte slice back with `bytes.decode('UTF-8')`.  We model the byte
buffer as `List Nat` (each entry < 256). -/

/-- The UTF-8 encoding of a single Unicode scalar value. -/
def utf8Bytes (c : Char) : List Nat :=
  let n := c.toNat
  if n < 0x80 then [n]
  else if n < 0x800 then [0xC0 + n / 64, 0x80 + n % 64]
  else if n < 0x10000 then
    [0xE0 + n / 4096, 0x80 + (n / 64) % 64, 0x80 + n % 64]
  else
    [0xF0 + n / 0x40000, 0x80 + (n / 4096) % 64, 0x80 + (n / 64) % 64,
      0x80 + n % 64]

/-- UTF-8 encoding of a character list. -/
def charsBytes : List Char → List Nat
  | [] => []
  | c :: cs => utf8Bytes c ++ charsBytes cs

/-- Python `text.encode('UTF-8')`. -/
def encodeUtf8 (s : String) : List Nat := charsBytes s.data

/-- Is `b` a UTF-8 continuation byte? -/
def IsContByte (b : Nat) : Prop := 0x80 ≤ b ∧ b < 0xC0

instance (b : Nat) : Decidable (IsContByte b) :=
  inferInstanceAs (Decidable (_ ∧ _))

/-- Strict UTF-8 decoding (Python `bytes.decode('UTF-8')`): rejects stray
continuation bytes, truncated sequences, overlong encodings, surrogates and
out-of-range lead bytes; `none` models `UnicodeDecodeError`.  Written with
explicit fuel (every step consumes at least one byte, so fuel equal to the
buffer length, as `decodeUtf8` passes, is always enough). -/
def decodeUtf8Fuel : Nat → List Nat → Option (List Char)
  | _, [] => some []
  | 0, _ :: _ => none
  | fuel + 1, b :: bs =>
    if b < 0x80 then
      (decodeUtf8Fuel fuel bs).map (fun cs => Char.ofNat b :: cs)
    else if b < 0xC2 then none
    else if b < 0xE0 then
      match bs with
      | b1 :: bs' =>
        if IsContByte b1 then
          (decodeUtf8Fuel fuel bs').map
            (fun cs => Char.ofNat ((b - 0xC0) * 64 + (b1 - 0x80)) :: cs)
        else none
      | [] => none
    else if b < 0xF0 then
      match bs with
      | b1 :: b2 :: bs' =>
        let n := (b - 0xE0) * 4096 + (b1 - 0x80) * 64 + (b2 - 0x80)
        if IsContByte b1 ∧ IsContByte b2 ∧ 0x800 ≤ n ∧
            (n < 0xD800 ∨ 0xE000 ≤ n) then
          (decodeUtf8Fuel fuel bs').map (fun cs => Char.ofNat n :: cs)
        else none
      | _ => none
    else if b < 0xF5 then
      match bs with
      | b1 :: b2 :: b3 :: bs' =>
        let n := (b - 0xF0) * 0x40000 + (b1 - 0x80) * 4096 +
          (b2 - 0x80) * 64 + (b3 - 0x80)
        if IsContByte b1 ∧ IsContByte b2 ∧ IsContByte b3 ∧
            0x10000 ≤ n ∧ n < 0x110000 then
          (decodeUtf8Fuel fuel bs').map (fun cs => Char.ofNat n :: cs)
        else none
      | _ => none
    else none

/-- Python `bytes.decode('UTF-8')` on a byte list. -/
def decodeUtf8 (bs : List Nat) : Option (List Char) :=
  decodeUtf8Fuel bs.length bs

/-! ### `extract_url_byte_positions` (lines 165-180)

```python
def extract_url_byte_positions(text, *, encoding='UTF-8'):
    encoded_text = text.encode(encoding)
    pattern = rb'https?://[^ \n\r\t]*'
    matches = re.finditer(pattern, encoded_text)
    url_byte_positions = []
    for match in matches:
        url_bytes = match.group(0)
        url = url_bytes.decode(encoding)
        url_byte_positions.append((url, match.start(), match.end()))
    return url_byte_positions
```

The byte regex means: at a match position the buffer must start with
`http://` or `https://` (the greedy `s?` backtracks), after which the match
greedily extends over every byte that is not space, newline, carriage return
or tab.  `re.finditer` yields non-overlapping matches scanning left to
right, resuming after each match's end. -/

/-- The bytes excluded by the `[^ \n\r\t]` class of the URL pattern. -/
def isWsByte (b : Nat) : Bool := b == 32 || b == 10 || b == 13 || b == 9

/-- The bytes of `"http://"`. -/
def httpBytes : List Nat := [104, 116, 116, 112, 58, 47, 47]

/-- The bytes of `"https://"`. -/
def httpsBytes : List Nat := [104, 116, 116, 112, 115, 58, 47, 47]

/-- Length of the `https?://` prefix match at the head of `bs`, if any. -/
def urlPrefixLen (bs : List Nat) : Option Nat :=
  if httpsBytes.isPrefixOf bs then some 8
  else if httpBytes.isPrefixOf bs then some 7
  else none

/-- `re.finditer` over the byte buffer: returns `(matchedBytes, start, end)`
triples, scanning left to right, resuming after each match.  The scan
consumes at least one byte per step, so running it with `fuel = bs.length`
(as `findUrlsAux` below does) never exhausts the fuel. -/
def findUrlsFuel : Nat → List Nat → Nat → List (List Nat × Nat × Nat)
  | 0, _, _ => []
  | _ + 1, [], _ => []
  | fuel + 1, b :: bs, i =>
    match urlPrefixLen (b :: bs) with
    | some p =>
      let tail := (List.drop p (b :: bs)).takeWhile (fun x => !isWsByte x)
      let len := p + tail.length
      (List.take len (b :: bs), i, i + len) ::
        findUrlsFuel fuel (List.drop len (b :: bs)) (i + len)
    | none => findUrlsFuel fuel bs (i + 1)

/-- The full left-to-right non-overlapping byte scan. -/
def findUrlsAux (bs : List Nat) (i : Nat) : List (List Nat × Nat × Nat) :=
  findUrlsFuel bs.length bs i

/-- Decode each match, as the source's result-building loop does; `none`
models an uncaught `UnicodeDecodeError`. -/
def decodeEntries : List (List Nat × Nat × Nat) →
    Option (List (String × Nat × Nat))
  | [] => some []
  | (u, s, e) :: rest =>
    match decodeUtf8 u, decodeEntries rest with
    | some cs, some out => some ((String.mk cs, s, e) :: out)
    | _, _ => none

/-- `extract_url_byte_positions` from the source. -/
def extract_url_byte_positions (text : String) :
    Option (List (String × Nat × Nat)) :=
  decodeEntries (findUrlsAux (encodeUtf8 text) 0)

/-! ### `extract_alert_data` (lines 69-100)

```python
st_signoffs = r"(?:(:?See something suspicious\?)|(?:Plan your trip or find alternate service options.))"
st_email_pattern = re.compile(r'(?P<body>.*?)\s+' + st_signoffs + '.*', re.DOTALL)
email_address_pattern = re.compile(r'\S+@\S+.com')
subject_prefixes = ["Reminder: ", "All Clear: ", "Resolved: ", "{{p_subject}}"]
```

`st_email_pattern.match(body)` succeeds iff the body splits as
`bodyGroup ++ ws ++ signoff ++ rest` with `ws` a nonempty whitespace run and
`signoff` either an optional `':'` followed by the literal
`"See something suspicious?"` (the `(:?` in the source is a literal-colon
typo, not a non-capturing group) or the literal
`"Plan your trip or find alternate service options"` followed by one
arbitrary character (the unescaped `.`, any character under `DOTALL`).
The lazy `.*?` makes `bodyGroup` the shortest such prefix.

`email_address_pattern` is `\S+@\S+.com` with an unescaped `.`: one or more
non-space characters, `@`, one or more non-space characters, any character
except `'\n'` (no `DOTALL` here), then the literal `com`.
-/

/-- Does a signoff alternative match at the head of `cs`? -/
def signoffAt (cs : List Char) : Bool :=
  "See something suspicious?".data.isPrefixOf cs ||
  (match cs with
   | ':' :: rest => "See something suspicious?".data.isPrefixOf rest
   | _ => false) ||
  (match cs.dropPrefix? "Plan your trip or find alternate service options".data with
   | some (_ :: _) => true
   | _ => false)

/-- After the mandatory first whitespace character: consume more whitespace
lazily until a signoff matches (`\s+` with backtracking, then the signoff). -/
def wsThenSignoff : List Char → Bool
  | [] => false
  | c :: rest => signoffAt (c :: rest) || (pyIsSpace c && wsThenSignoff rest)

/-- Does `\s+ signoff` match at the head of `cs`? -/
def stTrailerAt (cs : List Char) : Bool :=
  match cs with
  | [] => false
  | c :: rest => pyIsSpace c && wsThenSignoff rest

/-- The `body` group of `st_email_pattern.match`: the shortest prefix after
which `\s+ signoff` matches (`acc` is the reversed prefix scanned so far);
`none` when the pattern does not match.  (`stTrailerAt [] = false`, so the
lazy `.*?` can stop at every position including the last.) -/
def findBody (acc : List Char) : List Char → Option (List Char)
  | [] => none
  | c :: rest =>
    if stTrailerAt (c :: rest) then some acc.reverse
    else findBody (c :: acc) rest

/-- The `.com` tail of the pattern: one arbitrary character other than
`'\n'` (the unescaped `.`, no `DOTALL` for this pattern), then `"com"`. -/
def dotComAt : List Char → Bool
  | [] => false
  | d :: rest => d ≠ '\n' && "com".data.isPrefixOf rest

/-- `\S+.com` matches at the head of `cs`: consume one non-space character,
then either the `.com` tail matches or keep consuming the `\S+` run. -/
def sPlusDotCom : List Char → Bool
  | [] => false
  | c :: rest => !pyIsSpace c && (dotComAt rest || sPlusDotCom rest)

/-- `@\S+.com` matches at the head of `cs`. -/
def atHere : List Char → Bool
  | '@' :: rest => sPlusDotCom rest
  | _ => false

/-- `\S+@\S+.com` matches starting exactly at the head of `cs`: consume one
non-space character, then either the `@...` tail matches or keep consuming
the leading `\S+` run. -/
def emailMatchAt : List Char → Bool
  | [] => false
  | c :: rest => !pyIsSpace c && (atHere rest || emailMatchAt rest)

/-- `re.findall(email_address_pattern, s)` is nonempty: a match starts at
some position. -/
def containsEmailLike : List Char → Bool
  | [] => false
  | c :: rest => emailMatchAt (c :: rest) || containsEmailLike rest

/-- Python substring containment (`needle in hay` on `str`). -/
def isSubList (needle : List Char) : List Char → Bool
  | [] => needle.isEmpty
  | c :: rest => needle.isPrefixOf (c :: rest) || isSubList needle rest

/-- The `SimpleEmail` record from the source. -/
structure SimpleEmail where
  sender : String
  subject : String
  body : String

/-- `subject_prefixes` from the source. -/
def subject_prefixes : List String :=
  ["Reminder: ", "All Clear: ", "Resolved: ", "\x7b\x7bp_subject\x7d\x7d"]

/-- The subject-normalisation loop: for each known prefix in order, if the
current subject starts with it, drop it and strip. -/
def stripSubjectPrefixes (subject : String) : String :=
  subject_prefixes.foldl
    (fun acc p =>
      if p.data.isPrefixOf acc.data then
        pyStrip (String.mk (acc.data.drop p.length)) else acc)
    subject

/-- `extract_alert_data` from the source. -/
def extract_alert_data (mail : SimpleEmail) : Option String :=
  match findBody [] mail.body.data with
  | none => none
  | some bodyGroup =>
    let body := pyStripL bodyGroup
    if containsEmailLike body then none
    else
      let simple_subject := stripSubjectPrefixes mail.subject
      if isSubList simple_subject.data body then some (String.mk body)
      else some (mail.subject ++ "\n\n" ++ String.mk body)

/-! ### `deep_get` (lines 183-190) and the envelope path

```python
def deep_get(d, *keys):
    _d = d
    for key in keys:
        if isinstance(key, int) or key in _d:
            _d = _d[key]
        else:
            return None
    return _d
```

The values flowing through `deep_get` are parsed JSON, modelled by `JValue`.
An integer key skips the membership test entirely and indexes
unconditionally (Python semantics, including negative indices); a string
key is first tested with `key in _d`, which means key membership for a
mapping, element membership for a list, substring for a string, and a
`TypeError` for scalars.  Uncaught exceptions are modelled as `.error`. -/

/-- Parsed JSON. -/
inductive JValue where
  | jnull
  | jbool (b : Bool)
  | jnum (n : Int)
  | jstr (s : String)
  | jarr (xs : List JValue)
  | jobj (fields : List (String × JValue))

/-- A `deep_get` path segment: Python passes either `int` or `str`. -/
inductive PyKey where
  | intKey (i : Int)
  | strKey (s : String)
  deriving DecidableEq

/-- The Python exceptions reachable from `deep_get`. -/
inductive PyErr where
  | keyError
  | indexError
  | typeError
  deriving DecidableEq

/-- Python list/str indexing: negative indices count from the end, anything
out of range raises `IndexError`. -/
def pyIndex {α : Type} (xs : List α) (i : Int) : Except PyErr α :=
  if 0 ≤ i then
    match xs.get? i.toNat with
    | some x => .ok x
    | none => .error .indexError
  else if (-i).toNat ≤ xs.length then
    match xs.get? (xs.length - (-i).toNat) with
    | some x => .ok x
    | none => .error .indexError
  else .error .indexError

/-- Python `_d[key]`. -/
def pyGetItem : JValue → PyKey → Except PyErr JValue
  | .jobj fields, .strKey s =>
    match fields.find? (fun p => p.1 = s) with
    | some p => .ok p.2
    | none => .error .keyError
  | .jobj _, .intKey _ => .error .keyError
  | .jarr xs, .intKey i => pyIndex xs i
  | .jarr _, .strKey _ => .error .typeError
  | .jstr t, .intKey i => (pyIndex t.data i).map (fun c => .jstr (String.mk [c]))
  | .jstr _, .strKey _ => .error .typeError
  | _, _ => .error .typeError

/-- Python `key in _d` for a string key: key membership for a mapping,
element equality for a list (a string key can only equal a string element),
substring for a string, `TypeError` otherwise. -/
def pyContains : JValue → String → Except PyErr Bool
  | .jobj fields, s => .ok (fields.any (fun p => p.1 = s))
  | .jarr xs, s =>
    .ok (xs.any (fun v => match v with | .jstr t => t = s | _ => false))
  | .jstr t, s => .ok (isSubList s.data t.data)
  | _, _ => .error .typeError

/-- `deep_get` from the source.  `.ok none` is the graceful `return None`
path; `.error` is an uncaught exception. -/
def deep_get : JValue → List PyKey → Except PyErr (Option JValue)
  | d, [] => .ok (some d)
  | d, .intKey i :: ks =>
    match pyGetItem d (.intKey i) with
    | .ok v => deep_get v ks
    | .error e => .error e
  | d, .strKey s :: ks =>
    match pyContains d s with
    | .error e => .error e
    | .ok true =>
      match pyGetItem d (.strKey s) with
      | .ok v => deep_get v ks
      | .error e => .error e
    | .ok false => .ok none

/-- The envelope path used by `get_simplified_email`:
`deep_get(event, "Records", 0, "Sns", "Message")`. -/
def snsMessagePath : List PyKey :=
  [.strKey "Records", .intKey 0, .strKey "Sns", .strKey "Message"]

/-! ### `load_environment` (lines 36-51)

```python
def load_environment() -> (str, str, str):
    user = os.getenv("USERNAME")
    password = os.getenv("PASSWORD")
    approved_senders = os.getenv("APPROVED_SENDERS").split(",")
    if not user or not password or not approved_senders:
        missing = []
        if not user: missing.append("USERNAME")
        if not password: missing.append("PASSWORD")
        if not approved_senders: missing.append("APPROVED_SENDERS")
        log.warning(f"Unable to load environment: {missing}")
        exit(-1)
    return user, password, approved_senders
```

`os.getenv` returns `None` for an unset variable, so when
`APPROVED_SENDERS` is unset the attribute access `None.split(",")` raises
`AttributeError` before any of the checks run; and when it is set to any
string (even `""`), `split(",")` returns a nonempty list, so
`not approved_senders` is always false. -/

/-- The three environment variables read by `load_environment`; `none`
models an unset variable. -/
structure Env where
  username : Option String
  password : Option String
  approved_senders : Option String

/-- Python truthiness of `os.getenv` results: `None` and `""` are falsy. -/
def falsyStrOpt : Option String → Bool
  | none => true
  | some s => s.data.isEmpty

/-- Worker for `pySplitComma`; `acc` is the current piece, reversed. -/
def splitCommaAux : List Char → List Char → List String
  | [], acc => [String.mk acc.reverse]
  | c :: rest, acc =>
    if c = ',' then String.mk acc.reverse :: splitCommaAux rest []
    else splitCommaAux rest (c :: acc)

/-- Python `s.split(",")`: split on every comma, keeping empty pieces
(always returns at least one element). -/
def pySplitComma (s : String) : List String := splitCommaAux s.data []

/-- The possible outcomes of `load_environment`. -/
inductive LoadResult where
  | ok (user password : String) (approved : List String)
  | exited (status : Int) (missingLogged : List String)
  | attrError
  deriving DecidableEq

/-- `load_environment` from the source, as a function of the process
environment. -/
def load_environment (env : Env) : LoadResult :=
  match env.approved_senders with
  | none => .attrError
  | some a =>
    let approved := pySplitComma a
    if falsyStrOpt env.username || falsyStrOpt env.password || approved.isEmpty
    then
      .exited (-1)
        ((if falsyStrOpt env.username then ["USERNAME"] else []) ++
         (if falsyStrOpt env.password then ["PASSWORD"] else []) ++
         (if approved.isEmpty then ["APPROVED_SENDERS"] else []))
    else
      .ok (env.username.getD "") (env.password.getD "") approved

/-! ### `create_thread` / `send_post_with_hyperlinks` (lines 103-162)

```python
def create_thread(username, password, text, max_len=300):
    ...
    posts = split_to_posts(text, max_len=max_len)
    parent_ref = None
    root_ref = None
    for post in posts:
        parent_ref = send_post_with_hyperlinks(client, post, root_ref, parent_ref)
        if not root_ref:
            root_ref = parent_ref
```

`send_post_with_hyperlinks` computes the hyperlink facets for the chunk,
attaches `ReplyRef(parent=parent_ref, root=root_ref)` iff both refs are set,
sends the post and returns the strong ref of the created post.  We model the
collaborator abstractly: `genRef k` is the reference the collaborator
returns for the `k`-th created post (post objects are always truthy, so
`if not root_ref` is `root_ref is None` here), and we record each
collaborator call. -/

/-- One recorded `send_post` collaborator call. -/
structure PostCall (Ref : Type) where
  text : String
  facets : Option (List (String × Nat × Nat))
  root : Option Ref
  parent : Option Ref

/-- The posting loop of `create_thread`, recording the collaborator calls in
order.  `k` counts the posts already created. -/
def create_thread_loop {Ref : Type} (genRef : Nat → Ref) :
    List String → Nat → Option Ref → Option Ref → List (PostCall Ref)
  | [], _, _, _ => []
  | post :: rest, k, rootRef, parentRef =>
    { text := post, facets := extract_url_byte_positions post,
      root := rootRef, parent := parentRef } ::
      (let newParent := genRef k
       let newRoot := if rootRef.isSome then rootRef else some newParent
       create_thread_loop genRef rest (k + 1) newRoot (some newParent))

/-- `create_thread` from the source: split the text and run the posting
loop (with both refs initially `None`). -/
def create_thread {Ref : Type} (genRef : Nat → Ref) (text : String)
    (max_len : Nat) : Option (List (PostCall Ref)) :=
  (split_to_posts text max_len).map
    (fun posts => create_thread_loop genRef posts 0 none none)

/-! ### Auxiliary definitions used by the proofs -/

/-- The invariant carried through the `split_to_posts` loops: a chunk is
within the limit, or is the (never word-split) first line of the text, or
is a single whitespace-delimited word of the text; and it can be empty
only when the text has an empty line. -/
def chunkOK (text : String) (max_len : Nat) (c : String) : Prop :=
  (c.length ≤ max_len ∨ c = (splitlines text).headD "" ∨ c ∈ pySplit text) ∧
  (c = "" → "" ∈ splitlines text)

/-- A character list with one trailing `'\n'` removed, if present. -/
def dropTrailNl : List Char → List Char
  | [] => []
  | [c] => if c = '\n' then [] else [c]
  | c :: y :: t => c :: dropTrailNl (y :: t)

/-- Character-level join with `'\n'`. -/
def joinNLL : List (List Char) → List Char
  | [] => []
  | [x] => x
  | x :: y :: xs => x ++ '\n' :: joinNLL (y :: xs)

/-- `"\n" ++ l` for every element, concatenated. -/
def nlConcat : List String → String
  | [] => ""
  | l :: ls => "\n" ++ l ++ nlConcat ls

/-- The length of the URL match at the head of `bs` (prefix plus the greedy
non-whitespace run after it). -/
def urlMatchLen (bs : List Nat) (p : Nat) : Nat :=
  p + ((bs.drop p).takeWhile (fun x => !isWsByte x)).length

/-!
## Theorems for the claims
-/

example : split_to_posts "hello\nworld" 300 = some ["hello\nworld"] := by decide
example : split_to_posts "hello\nworld" 8 = some ["hello", "world"] := by decide
example : split_to_posts "" 300 = none := by decide
example : extract_url_byte_positions "see http://x.co/a and http://x.co/b" =
    some [("http://x.co/a", 4, 17), ("http://x.co/b", 22, 35)] := by decide
example : extract_alert_data
    ⟨"s", "Sub", "Line 1 is fine\nSee something suspicious? Call us."⟩ =
    some "Sub\n\nLine 1 is fine" := by decide
example : deep_get (.jobj [("Records", .jarr [])]) snsMessagePath =
    .error .indexError := rfl
example : load_environment ⟨none, some "p", some "a@b"⟩ =
    .exited (-1) ["USERNAME"] := by decide

/-- C9: `split_to_posts` is defined (returns a chunk sequence without
raising) only for input text with at least one line: applied to the empty
string it hits `lines[0]` with `lines = []` and fails with an `IndexError`
(modelled as `none`) rather than returning an empty sequence. -/
theorem split_to_posts_needs_a_line :
    (∀ max_len : Nat, split_to_posts "" max_len = none) ∧
    ∀ (text : String) (max_len : Nat),
      (split_to_posts text max_len).isSome = true → splitlines text ≠ [] := by
  constructor
  · intro max_len
    rfl
  · intro text max_len h hnil
    unfold split_to_posts at h
    rw [hnil] at h
    cases h

/-- Witness for C9: a one-line text is accepted, and indeed has a line. -/
theorem split_to_posts_needs_a_line_witness :
    (split_to_posts "" 300 = none) ∧ splitlines "hi" ≠ [] :=
  ⟨split_to_posts_needs_a_line.1 300,
   split_to_posts_needs_a_line.2 "hi" 300 (by decide)⟩

/-- C2 (failing input): the word-splitting fallback calls `text.split()` on
the whole original text, not on the overflowing line.  For
`text = "abc\ndddddddddd"` and `max_len = 5` the chunk `"abc"` has already
been emitted when the 10-character line overflows, and the fallback
re-splits the whole text, emitting `"abc"` a second time. -/
theorem split_to_posts_duplicates_earlier_chunk :
    split_to_posts "abc\ndddddddddd" 5 = some ["abc", "abc", "dddddddddd"] ∧
    pySplit "abc\ndddddddddd" = ["abc", "dddddddddd"] := by decide

/-- C6 (failing inputs): when `APPROVED_SENDERS` is unset,
`os.getenv("APPROVED_SENDERS").split(",")` raises `AttributeError` on
`None` before any check runs; when it is set but empty, `"".split(",")` is
the truthy list `[""]`, so `load_environment` returns instead of exiting. -/
theorem load_environment_approved_senders_divergence :
    load_environment ⟨some "u", some "p", none⟩ = .attrError ∧
    load_environment ⟨some "u", some "p", some ""⟩ = .ok "u" "p" [""] ∧
    load_environment ⟨none, none, some "a@b.com"⟩ =
      .exited (-1) ["USERNAME", "PASSWORD"] := by decide

/-- C10: the email-address privacy scan inspects only the captured body,
never the subject.  For this concrete email the subject matches the
address pattern, the captured (stripped) body does not, and the extracted
text — the subject prepended to the body — contains the address. -/
theorem extract_alert_data_subject_address_leak :
    extract_alert_data
        ⟨"s", "Contact foo@bar.com now",
          "Alert text here\nSee something suspicious? call"⟩ =
      some "Contact foo@bar.com now\n\nAlert text here" ∧
    containsEmailLike "Contact foo@bar.com now".data = true ∧
    findBody [] "Alert text here\nSee something suspicious? call".data =
      some "Alert text here".data ∧
    containsEmailLike (pyStripL "Alert text here".data) = false ∧
    isSubList "foo@bar.com".data
      "Contact foo@bar.com now\n\nAlert text here".data = true := by decide

/-- C8: whenever the body matches the boilerplate-trailer pattern and the
trimmed captured body contains a substring matching the loose email-address
pattern, `extract_alert_data` returns absence. -/
theorem extract_alert_data_rejects_addresses (mail : SimpleEmail)
    (bodyGroup : List Char)
    (hmatch : findBody [] mail.body.data = some bodyGroup)
    (haddr : containsEmailLike (pyStripL bodyGroup) = true) :
    extract_alert_data mail = none := by
  unfold extract_alert_data
  rw [hmatch]
  simp only [haddr, if_true]

/-- Witness for C8 at the spec's own example body. -/
theorem extract_alert_data_rejects_addresses_witness :
    findBody [] "contact me at foo@bar.com\nSee something suspicious? x".data =
      some "contact me at foo@bar.com".data ∧
    containsEmailLike (pyStripL "contact me at foo@bar.com".data) = true ∧
    extract_alert_data
      ⟨"s", "Sub", "contact me at foo@bar.com\nSee something suspicious? x"⟩ =
      none :=
  ⟨by decide, by decide,
   extract_alert_data_rejects_addresses
     ⟨"s", "Sub", "contact me at foo@bar.com\nSee something suspicious? x"⟩
     "contact me at foo@bar.com".data (by decide) (by decide)⟩

/-- C5 (counterexample): on the envelope `{"Records": []}` the very path
`get_simplified_email` uses makes `deep_get` raise `IndexError` — the
integer segment `0` skips the membership test and indexes the empty list —
rather than return absence. -/
theorem deep_get_raises_on_empty_records :
    deep_get (.jobj [("Records", .jarr [])]) snsMessagePath =
      .error .indexError := rfl

/-- C5 (amended): `deep_get` returns absence without raising when a string
segment is not a key of the current mapping; it is the integer segments
(and string segments reaching non-containers) that can raise. -/
theorem deep_get_missing_string_key (fields : List (String × JValue))
    (s : String) (ks : List PyKey) (h : ∀ p ∈ fields, p.1 ≠ s) :
    deep_get (.jobj fields) (.strKey s :: ks) = .ok none := by
  have hany : (fields.any (fun p => p.1 = s)) = false := by
    rw [List.any_eq_false]
    intro p hp
    simp only [decide_eq_true_eq]
    exact h p hp
  have hc : pyContains (.jobj fields) s = .ok false := by
    show Except.ok (fields.any (fun p => p.1 = s)) = .ok false
    rw [hany]
  unfold deep_get
  rw [hc]

/-- Witness for C5's amended claim. -/
theorem deep_get_missing_string_key_witness :
    deep_get (.jobj [("Other", .jnum 1)]) snsMessagePath = .ok none :=
  deep_get_missing_string_key [("Other", .jnum 1)] "Records"
    [.intKey 0, .strKey "Sns", .strKey "Message"] (by decide)

/-- Helper for C7: the posting loop after the first post, when both refs are
set.  The root reference never changes again, and the parent reference is
always the reference of the immediately preceding collaborator call. -/
theorem create_thread_loop_started {Ref : Type} (genRef : Nat → Ref) :
    ∀ (posts : List String) (k : Nat) (r p : Ref),
      (create_thread_loop genRef posts k (some r) (some p)).length =
        posts.length ∧
      (create_thread_loop genRef posts k (some r) (some p)).map
        (fun c => c.text) = posts ∧
      ∀ i c, (create_thread_loop genRef posts k (some r) (some p))[i]? =
          some c →
        c.root = some r ∧
        c.parent = some (if i = 0 then p else genRef (k + i - 1)) := by
  intro posts
  induction posts with
  | nil =>
    intro k r p
    refine ⟨rfl, rfl, ?_⟩
    intro i c hc
    cases i <;> cases hc
  | cons post rest ih =>
    intro k r p
    refine ⟨?_, ?_, ?_⟩
    · simp [create_thread_loop, (ih (k+1) r (genRef k)).1]
    · simp [create_thread_loop, (ih (k+1) r (genRef k)).2.1]
    · intro i c hc
      match i with
      | 0 =>
        simp only [create_thread_loop, List.getElem?_cons_zero,
          Option.some.injEq] at hc
        subst hc
        exact ⟨rfl, by simp⟩
      | j + 1 =>
        simp only [create_thread_loop, Option.isSome_some, if_true,
          List.getElem?_cons_succ] at hc
        have := (ih (k+1) r (genRef k)).2.2 j c hc
        refine ⟨this.1, ?_⟩
        rw [this.2]
        congr 1
        match j with
        | 0 => simp
        | m + 1 =>
          simp only [if_neg (Nat.succ_ne_zero m),
            if_neg (Nat.succ_ne_zero (m+1))]
          congr 1
          omega

/-- C7: for every chunk sequence, the publishing loop makes exactly one
collaborator call per chunk, in order; the first call carries no reply
context, and every later call carries `root` equal to the reference
returned for the first call and `parent` equal to the reference returned
for the immediately preceding call. -/
theorem create_thread_protocol {Ref : Type} (genRef : Nat → Ref)
    (posts : List String) :
    (create_thread_loop genRef posts 0 none none).length = posts.length ∧
    (create_thread_loop genRef posts 0 none none).map (fun c => c.text) =
      posts ∧
    (∀ c, (create_thread_loop genRef posts 0 none none)[0]? = some c →
      c.root = none ∧ c.parent = none) ∧
    ∀ i c, (create_thread_loop genRef posts 0 none none)[i]? = some c →
      0 < i → c.root = some (genRef 0) ∧ c.parent = some (genRef (i - 1)) := by
  match posts with
  | [] =>
    refine ⟨rfl, rfl, ?_, ?_⟩
    · intro c hc
      cases hc
    · intro i c hc
      cases i <;> cases hc
  | post :: rest =>
    have h := create_thread_loop_started genRef rest 1 (genRef 0) (genRef 0)
    refine ⟨?_, ?_, ?_, ?_⟩
    · simp [create_thread_loop, h.1]
    · simp [create_thread_loop, h.2.1]
    · intro c hc
      simp only [create_thread_loop, List.getElem?_cons_zero,
        Option.some.injEq] at hc
      subst hc
      exact ⟨rfl, rfl⟩
    · intro i c hc hi
      match i with
      | j + 1 =>
        simp only [create_thread_loop, Option.isSome_none, if_false,
          List.getElem?_cons_succ] at hc
        have hj := h.2.2 j c hc
        refine ⟨hj.1, ?_⟩
        rw [hj.2]
        congr 1
        match j with
        | 0 => simp
        | m + 1 =>
          simp only [if_neg (Nat.succ_ne_zero m)]
          congr 1
          omega

/-- Witness for C7 with three chunks and the identity reference
generator. -/
theorem create_thread_protocol_witness :
    (create_thread_loop (fun n => n) ["a", "b", "c"] 0 none none).length = 3 ∧
    (∀ c, (create_thread_loop (fun n => n) ["a", "b", "c"] 0 none none)[0]? =
      some c → c.root = none ∧ c.parent = none) ∧
    (∀ c, (create_thread_loop (fun n => n) ["a", "b", "c"] 0 none none)[2]? =
      some c → c.root = some 0 ∧ c.parent = some 1) :=
  ⟨(create_thread_protocol (fun n => n) ["a", "b", "c"]).1,
   (create_thread_protocol (fun n => n) ["a", "b", "c"]).2.2.1,
   fun c hc =>
     (create_thread_protocol (fun n => n) ["a", "b", "c"]).2.2.2 2 c hc
       (by decide)⟩

/-- Every piece produced by `str.split()` is nonempty. -/
theorem mem_pySplitAux_ne_empty :
    ∀ (cs acc : List Char) (w : String), w ∈ pySplitAux cs acc → w ≠ "" := by
  intro cs
  induction cs with
  | nil =>
    intro acc w hw
    unfold pySplitAux at hw
    split at hw
    · cases hw
    · rename_i hacc
      rw [List.mem_singleton] at hw
      subst hw
      intro hcontra
      have : acc.reverse = [] := congrArg String.data hcontra
      simp only [List.reverse_eq_nil_iff] at this
      subst this
      exact hacc rfl
  | cons c rest ih =>
    intro acc w hw
    unfold pySplitAux at hw
    split at hw
    · split at hw
      · exact ih [] w hw
      · rename_i hacc
        rcases List.mem_cons.mp hw with hw | hw
        · subst hw
          intro hcontra
          have : acc.reverse = [] := congrArg String.data hcontra
          simp only [List.reverse_eq_nil_iff] at this
          subst this
          exact hacc rfl
        · exact ih [] w hw
    · exact ih (c :: acc) w hw

/-- The invariant carried through the `split_to_posts` loops: a chunk is
within the limit, or is the (never word-split) first line of the text, or
is a single whitespace-delimited word of the text; and it can be empty
only when the text has an empty line. -/
theorem chunkOK_of_le {text : String} {max_len : Nat} {c : String}
    (hle : c.length ≤ max_len) (hne : c ≠ "") : chunkOK text max_len c :=
  ⟨Or.inl hle, fun h => absurd h hne⟩

theorem append_sep_ne_empty (a sep b : String) (hsep : 0 < sep.length) :
    a ++ sep ++ b ≠ "" := by
  intro h
  have hlen := congrArg String.length h
  have h0 : ("" : String).length = 0 := rfl
  simp only [String.length_append, h0] at hlen
  omega

/-- The word loop preserves the invariant. -/
theorem stpWordLoop_inv (text : String) (max_len : Nat) :
    ∀ (ws posts : List String) (cur : String),
      (∀ p ∈ posts, chunkOK text max_len p) → chunkOK text max_len cur →
      (∀ w ∈ ws, w ∈ pySplit text) →
      (∀ p ∈ (stpWordLoop max_len posts cur ws).1, chunkOK text max_len p) ∧
        chunkOK text max_len (stpWordLoop max_len posts cur ws).2 := by
  intro ws
  induction ws with
  | nil =>
    intro posts cur hposts hcur _
    exact ⟨hposts, hcur⟩
  | cons w ws ih =>
    intro posts cur hposts hcur hws
    unfold stpWordLoop
    split
    · rename_i hfit
      refine ih posts (cur ++ " " ++ w) hposts ?_
        (fun x hx => hws x (List.mem_cons_of_mem _ hx))
      refine chunkOK_of_le ?_ (append_sep_ne_empty cur " " w (by decide))
      have h1 : (" " : String).length = 1 := rfl
      simp only [String.length_append, h1]
      omega
    · refine ih (posts ++ [cur]) w ?_ ?_
        (fun x hx => hws x (List.mem_cons_of_mem _ hx))
      · intro p hp
        rcases List.mem_append.mp hp with hp | hp
        · exact hposts p hp
        · rw [List.mem_singleton] at hp
          subst hp
          exact hcur
      · have hwmem : w ∈ pySplit text := hws w (List.mem_cons_self _ _)
        exact ⟨Or.inr (Or.inr hwmem),
          fun hw => absurd hw (mem_pySplitAux_ne_empty text.data [] w hwmem)⟩

/-- The line loop preserves the invariant. -/
theorem stpLineLoop_inv (text : String) (max_len : Nat) :
    ∀ (ls posts : List String) (cur : String),
      (∀ p ∈ posts, chunkOK text max_len p) → chunkOK text max_len cur →
      (∀ l ∈ ls, l ∈ splitlines text) →
      ∀ res, stpLineLoop text max_len posts cur ls = some res →
        (∀ p ∈ res.1, chunkOK text max_len p) ∧ chunkOK text max_len res.2 := by
  intro ls
  induction ls with
  | nil =>
    intro posts cur hposts hcur _ res hres
    cases hres
    exact ⟨hposts, hcur⟩
  | cons line ls ih =>
    intro posts cur hposts hcur hls res hres
    unfold stpLineLoop at hres
    split at hres
    · rename_i hfit
      refine ih posts (cur ++ "\n" ++ line) hposts ?_
        (fun x hx => hls x (List.mem_cons_of_mem _ hx)) res hres
      refine chunkOK_of_le ?_ (append_sep_ne_empty cur "\n" line (by decide))
      have h1 : ("\n" : String).length = 1 := rfl
      simp only [String.length_append, h1]
      omega
    · split at hres
      · rename_i hlinefit
        refine ih (posts ++ [cur]) line ?_ ?_
          (fun x hx => hls x (List.mem_cons_of_mem _ hx)) res hres
        · intro p hp
          rcases List.mem_append.mp hp with hp | hp
          · exact hposts p hp
          · rw [List.mem_singleton] at hp
            subst hp
            exact hcur
        · have hmem : line ∈ splitlines text := hls line (List.mem_cons_self _ _)
          refine ⟨Or.inl hlinefit, fun hl => ?_⟩
          rw [hl] at hmem
          exact hmem
      · rename_i hover
        revert hres
        split
        · intro hres
          cases hres
        · rename_i w ws hsplit
          intro hres
          have hwords : ∀ x ∈ w :: ws, x ∈ pySplit text := by
            rw [← hsplit]
            exact fun x hx => hx
          have hcurposts : ∀ p ∈ posts ++ [cur], chunkOK text max_len p := by
            intro p hp
            rcases List.mem_append.mp hp with hp | hp
            · exact hposts p hp
            · rw [List.mem_singleton] at hp
              subst hp
              exact hcur
          have hwordsrest : ∀ x ∈ ws, x ∈ pySplit text :=
            fun x hx => hwords x (List.mem_cons_of_mem _ hx)
          have hwOK : chunkOK text max_len w :=
            ⟨Or.inr (Or.inr (hwords w (List.mem_cons_self _ _))),
             fun hw => absurd hw
               (mem_pySplitAux_ne_empty text.data [] w
                 (hwords w (List.mem_cons_self _ _)))⟩
          have hstep := stpWordLoop_inv text max_len ws (posts ++ [cur]) w
            hcurposts hwOK hwordsrest
          exact ih _ _ hstep.1 hstep.2
            (fun x hx => hls x (List.mem_cons_of_mem _ hx)) res hres

/-- C1 (amended): every chunk returned by `split_to_posts` either fits in
`max_len`, or is the first line of the text (the first line is never
word-split, even when it holds several words), or is a single
whitespace-delimited word of the text; and a chunk is empty only when the
text itself contains an empty line. -/
theorem split_to_posts_length_bound (text : String) (max_len : Nat)
    (posts : List String) (h : split_to_posts text max_len = some posts) :
    ∀ c ∈ posts,
      (c.length ≤ max_len ∨ c = (splitlines text).headD "" ∨
        c ∈ pySplit text) ∧
      (c = "" → "" ∈ splitlines text) := by
  unfold split_to_posts at h
  intro c hc
  revert h
  cases hsl : splitlines text with
  | nil =>
    intro h
    cases h
  | cons first rest =>
    intro h
    obtain ⟨res, hres, hposts⟩ := Option.map_eq_some'.mp h
    have hfirst : chunkOK text max_len first := by
      constructor
      · right
        left
        rw [hsl]
        rfl
      · intro hf
        rw [hsl, ← hf]
        exact List.mem_cons_self _ _
    have hrest : ∀ l ∈ rest, l ∈ splitlines text := by
      intro l hl
      rw [hsl]
      exact List.mem_cons_of_mem _ hl
    have hinv := stpLineLoop_inv text max_len rest [] first
      (by intro p hp; cases hp) hfirst hrest res hres
    rw [← hposts] at hc
    rcases List.mem_append.mp hc with hc | hc
    · have := hinv.1 c hc
      unfold chunkOK at this
      rw [hsl] at this
      exact this
    · rw [List.mem_singleton] at hc
      subst hc
      have := hinv.2
      unfold chunkOK at this
      rw [hsl] at this
      exact this

/-- Witness for C1's amended claim. -/
theorem split_to_posts_length_bound_witness :
    (("hello\nworld" : String).length ≤ 300 ∨
      "hello\nworld" = (splitlines "hello\nworld").headD "" ∨
      "hello\nworld" ∈ pySplit "hello\nworld") ∧
    ("hello\nworld" = "" → "" ∈ splitlines "hello\nworld") :=
  split_to_posts_length_bound "hello\nworld" 300 ["hello\nworld"] (by decide)
    "hello\nworld" (by decide)

/-- C1 (counterexample to the claim as stated): an over-long *first* line
is emitted unsplit even though it is not a single word, and an empty chunk
can be emitted.  Here `"aaaa bbbb"` (9 characters, two words) exceeds
`max_len = 5` yet is returned whole, and `""` is a returned chunk for the
second input. -/
theorem split_to_posts_claim_counterexample :
    split_to_posts "aaaa bbbb\nc" 5 = some ["aaaa bbbb", "c"] ∧
    ("aaaa bbbb" : String).length = 9 ∧
    pySplit "aaaa bbbb\nc" = ["aaaa", "bbbb", "c"] ∧
    "aaaa bbbb" ∉ pySplit "aaaa bbbb\nc" ∧
    split_to_posts "aaa\n\nbbbb" 3 = some ["aaa", "", "aaa", "bbbb"] ∧
    "" ∈ ["aaa", "", "aaa", "bbbb"] := by decide


/-! ### The rejoin property (C3) -/

theorem joinNLL_cons_ne (x : List Char) (l : List (List Char)) (h : l ≠ []) :
    joinNLL (x :: l) = x ++ '\n' :: joinNLL l := by
  match l with
  | [] => exact absurd rfl h
  | y :: xs => rfl

theorem joinNL_cons_ne (x : String) (l : List String) (h : l ≠ []) :
    joinNL (x :: l) = x ++ "\n" ++ joinNL l := by
  match l with
  | [] => exact absurd rfl h
  | y :: xs => rfl

theorem joinNL_map_mk :
    ∀ l : List (List Char), joinNL (l.map String.mk) = String.mk (joinNLL l) := by
  intro l
  match l with
  | [] => rfl
  | [x] => rfl
  | x :: y :: xs =>
    have ih := joinNL_map_mk (y :: xs)
    rw [List.map_cons]
    rw [joinNL_cons_ne _ _ (by simp), joinNLL_cons_ne _ _ (by simp)]
    rw [ih]
    apply String.ext
    simp [String.data_append]

theorem dropTrailNl_cons_ne (c : Char) (rest : List Char) (h : rest ≠ []) :
    dropTrailNl (c :: rest) = c :: dropTrailNl rest := by
  match rest with
  | [] => exact absurd rfl h
  | y :: t => rfl

/-- Step equation: a `'\n'` at the head always closes the current line. -/
theorem splitlinesAux_cons_nl (rest acc : List Char) :
    splitlinesAux ('\n' :: rest) acc = acc.reverse :: splitlinesAux rest [] := by
  cases rest <;> rfl

/-- Step equation: a non-boundary character is accumulated. -/
theorem splitlinesAux_cons_nb (c : Char) (rest acc : List Char)
    (h : isLineBreakChar c = false) :
    splitlinesAux (c :: rest) acc = splitlinesAux rest (c :: acc) := by
  cases rest with
  | nil =>
    show (if isLineBreakChar c then acc.reverse :: splitlinesAux [] []
      else splitlinesAux [] (c :: acc)) = _
    rw [h]
    rfl
  | cons d t =>
    show (if isLineBreakChar c then _ else splitlinesAux (d :: t) (c :: acc)) = _
    rw [h]
    rfl

theorem splitlinesAux_ne_nil :
    ∀ (cs acc : List Char), cs ≠ [] ∨ acc ≠ [] → splitlinesAux cs acc ≠ [] := by
  intro cs
  induction cs with
  | nil =>
    intro acc h
    rcases h with h | h
    · exact absurd rfl h
    · unfold splitlinesAux
      rw [if_neg (by simpa using h)]
      simp
  | cons c rest ih =>
    intro acc _
    by_cases hbr : isLineBreakChar c = true
    · cases rest with
      | nil =>
        show (if isLineBreakChar c then acc.reverse :: splitlinesAux [] []
          else splitlinesAux [] (c :: acc)) ≠ []
        rw [hbr]
        simp
      | cons d t =>
        show (if isLineBreakChar c then
            if c = '\r' ∧ d = '\n' then acc.reverse :: splitlinesAux t []
            else acc.reverse :: splitlinesAux (d :: t) []
          else splitlinesAux (d :: t) (c :: acc)) ≠ []
        rw [hbr]
        simp only [if_true]
        split <;> simp
    · rw [splitlinesAux_cons_nb c rest acc (by simpa using hbr)]
      exact ih (c :: acc) (Or.inr (by simp))

/-- Under a text whose only line-boundary character is `'\n'`, joining the
lines produced by `splitlines` with `'\n'` restores the text minus one
trailing newline. -/
theorem joinNLL_splitlinesAux :
    ∀ (cs acc : List Char), (∀ c ∈ cs, isLineBreakChar c = true → c = '\n') →
      joinNLL (splitlinesAux cs acc) = acc.reverse ++ dropTrailNl cs := by
  intro cs
  induction cs with
  | nil =>
    intro acc _
    unfold splitlinesAux
    by_cases hacc : acc = []
    · subst hacc
      simp [joinNLL, dropTrailNl]
    · rw [if_neg (by simpa using hacc)]
      simp [joinNLL, dropTrailNl]
  | cons c rest ih =>
    intro acc hnb
    by_cases hbr : isLineBreakChar c = true
    · have hc : c = '\n' := hnb c (List.mem_cons_self _ _) hbr
      subst hc
      rw [splitlinesAux_cons_nl]
      by_cases hrest : rest = []
      · subst hrest
        simp [splitlinesAux, joinNLL, dropTrailNl]
      · have hne := splitlinesAux_ne_nil rest [] (Or.inl hrest)
        rw [joinNLL_cons_ne _ _ hne]
        rw [ih [] (fun x hx hb => hnb x (List.mem_cons_of_mem _ hx) hb)]
        rw [dropTrailNl_cons_ne _ _ hrest]
        simp
    · rw [splitlinesAux_cons_nb c rest acc (by simpa using hbr)]
      rw [ih (c :: acc) (fun x hx hb => hnb x (List.mem_cons_of_mem _ hx) hb)]
      by_cases hrest : rest = []
      · subst hrest
        have hc : c ≠ '\n' := by
          intro h
          subst h
          exact hbr (by decide)
        have h2 : dropTrailNl [c] = [c] := if_neg hc
        have h1 : dropTrailNl ([] : List Char) = [] := rfl
        rw [h1, h2]
        simp
      · rw [dropTrailNl_cons_ne _ _ hrest]
        simp

/-- Removing a trailing newline does not change the stripped value. -/
theorem pyStripL_dropTrailNl (cs : List Char) :
    pyStripL (dropTrailNl cs) = pyStripL cs := by
  have hshape : dropTrailNl cs = cs ∨
      ∃ ds, cs = ds ++ ['\n'] ∧ dropTrailNl cs = ds := by
    induction cs with
    | nil => exact Or.inl rfl
    | cons c rest ih =>
      match rest, ih with
      | [], _ =>
        by_cases hc : c = '\n'
        · subst hc
          exact Or.inr ⟨[], rfl, if_pos rfl⟩
        · exact Or.inl (if_neg hc)
      | y :: t, Or.inl hid =>
        left
        rw [dropTrailNl_cons_ne _ _ (by simp), hid]
      | y :: t, Or.inr ⟨ds, heq, hd⟩ =>
        right
        refine ⟨c :: ds, ?_, ?_⟩
        · rw [List.cons_append, ← heq]
        · rw [dropTrailNl_cons_ne _ _ (by simp), hd]
  rcases hshape with h | ⟨ds, heq, hd⟩
  · rw [h]
  · rw [hd, heq]
    unfold pyStripL pyStripLeft
    rw [List.dropWhile_append]
    split
    · rename_i hempty
      rw [List.isEmpty_iff] at hempty
      rw [hempty]
      have hnl : List.dropWhile pyIsSpace ['\n'] = [] := by decide
      rw [hnl]
    · unfold pyStripRight
      rw [List.reverse_append]
      simp only [List.reverse_cons, List.reverse_nil, List.nil_append,
        List.singleton_append]
      rw [List.dropWhile_cons_of_pos (by decide)]

theorem joinNL_append_last (A : List String) (x y : String) :
    joinNL (A ++ [x ++ y]) = joinNL (A ++ [x]) ++ y := by
  induction A with
  | nil => rfl
  | cons a A ih =>
    rw [List.cons_append, List.cons_append,
      joinNL_cons_ne _ _ (by simp), joinNL_cons_ne _ _ (by simp), ih]
    simp [String.append_assoc]

theorem joinNL_snoc (B : List String) (y : String) (h : B ≠ []) :
    joinNL (B ++ [y]) = joinNL B ++ "\n" ++ y := by
  induction B with
  | nil => exact absurd rfl h
  | cons b B ih =>
    match B, ih with
    | [], _ => rfl
    | c :: B', ih =>
      rw [List.cons_append, joinNL_cons_ne _ _ (by simp),
        joinNL_cons_ne _ _ (by simp), ih (by simp)]
      simp [String.append_assoc]

/-- In the non-overflow case the line loop never consults the
word-splitting fallback and its output, rejoined with `'\n'`, is the
rejoined input lines. -/
theorem stpLineLoop_join (text : String) (max_len : Nat) :
    ∀ (ls posts : List String) (cur : String),
      (∀ l ∈ ls, l.length ≤ max_len) →
      ∃ res, stpLineLoop text max_len posts cur ls = some res ∧
        joinNL (res.1 ++ [res.2]) = joinNL (posts ++ [cur]) ++ nlConcat ls := by
  intro ls
  induction ls with
  | nil =>
    intro posts cur _
    exact ⟨(posts, cur), rfl, by simp [nlConcat]⟩
  | cons line ls ih =>
    intro posts cur hlen
    unfold stpLineLoop
    split
    · obtain ⟨res, hres, hjoin⟩ := ih posts (cur ++ "\n" ++ line)
        (fun l hl => hlen l (List.mem_cons_of_mem _ hl))
      refine ⟨res, hres, ?_⟩
      rw [hjoin]
      rw [show cur ++ "\n" ++ line = cur ++ ("\n" ++ line) from
        String.append_assoc cur "\n" line]
      rw [joinNL_append_last]
      rw [nlConcat]
      simp [String.append_assoc]
    · split
      · obtain ⟨res, hres, hjoin⟩ := ih (posts ++ [cur]) line
          (fun l hl => hlen l (List.mem_cons_of_mem _ hl))
        refine ⟨res, hres, ?_⟩
        rw [hjoin]
        rw [joinNL_snoc (posts ++ [cur]) line (by simp)]
        rw [nlConcat]
        simp [String.append_assoc]
      · rename_i hover
        exact absurd (hlen line (List.mem_cons_self _ _)) hover

theorem joinNL_eq_nlConcat :
    ∀ (rest : List String) (first : String),
      joinNL (first :: rest) = first ++ nlConcat rest := by
  intro rest
  induction rest with
  | nil =>
    intro first
    simp [joinNL, nlConcat]
  | cons y t ih =>
    intro first
    rw [joinNL_cons_ne _ _ (by simp), nlConcat, ih y]
    simp [String.append_assoc]

/-- C3: when the text's only line boundaries are `'\n'`, the text is
nonempty, and no single line exceeds `max_len`, `split_to_posts` succeeds
and joining its chunks back with the newline separator reproduces the
original text up to stripping. -/
theorem split_to_posts_rejoin (text : String) (max_len : Nat)
    (hnb : ∀ c ∈ text.data, isLineBreakChar c = true → c = '\n')
    (hlen : ∀ l ∈ splitlines text, l.length ≤ max_len)
    (hne : text ≠ "") :
    ∃ posts, split_to_posts text max_len = some posts ∧
      pyStrip (joinNL posts) = pyStrip text := by
  have hdata : text.data ≠ [] := by
    intro h
    exact hne (String.ext (h.trans rfl))
  have hsplitne : splitlinesAux text.data [] ≠ [] :=
    splitlinesAux_ne_nil text.data [] (Or.inl hdata)
  cases haux : splitlinesAux text.data [] with
  | nil => exact absurd haux hsplitne
  | cons f0 r0 =>
    have hsl : splitlines text = String.mk f0 :: r0.map String.mk := by
      show (splitlinesAux text.data []).map String.mk = _
      rw [haux, List.map_cons]
    obtain ⟨res, hres, hjoin⟩ := stpLineLoop_join text max_len
      (r0.map String.mk) [] (String.mk f0)
      (fun l hl => hlen l (by rw [hsl]; exact List.mem_cons_of_mem _ hl))
    refine ⟨res.1 ++ [res.2], ?_, ?_⟩
    · unfold split_to_posts
      rw [hsl]
      show (stpLineLoop text max_len [] (String.mk f0) (r0.map String.mk)).map
        (fun s => s.1 ++ [s.2]) = some (res.1 ++ [res.2])
      rw [hres]
      rfl
    · rw [hjoin]
      have h1 : joinNL ([] ++ [String.mk f0]) = String.mk f0 := rfl
      rw [h1, ← joinNL_eq_nlConcat (r0.map String.mk) (String.mk f0)]
      have h2 : String.mk f0 :: r0.map String.mk =
          (f0 :: r0).map String.mk := rfl
      rw [h2, joinNL_map_mk, ← haux,
        joinNLL_splitlinesAux text.data [] hnb]
      unfold pyStrip
      simp only [List.reverse_nil, List.nil_append]
      rw [pyStripL_dropTrailNl]

/-- Witness for C3. -/
theorem split_to_posts_rejoin_witness :
    ∃ posts, split_to_posts "hello\nworld" 8 = some posts ∧
      pyStrip (joinNL posts) = pyStrip "hello\nworld" :=
  split_to_posts_rejoin "hello\nworld" 8 (by decide) (by decide) (by decide)

/-! ### Byte spans of the URL scanner (C4)

Every Unicode scalar value is below `0xD800` or in `(0xDFFF, 0x110000)`; the
UTF-8 encoder therefore hits exactly one of its four branches, the decoder
accepts exactly what the encoder produced, and a regex match over the
encoded buffer — which must start at an ASCII `'h'` byte and stop before an
ASCII whitespace byte — always covers whole characters. -/

theorem char_val_range (c : Char) :
    c.toNat < 0xD800 ∨ (0xDFFF < c.toNat ∧ c.toNat < 0x110000) := c.valid

theorem utf8Bytes_ascii {c : Char} (h : c.toNat < 0x80) :
    utf8Bytes c = [c.toNat] := by
  simp only [utf8Bytes]
  rw [if_pos h]

theorem utf8Bytes_multi_ge {c : Char} (h : 0x80 ≤ c.toNat) :
    ∀ b ∈ utf8Bytes c, 0x80 ≤ b := by
  intro b hb
  simp only [utf8Bytes] at hb
  split at hb
  · omega
  · split at hb
    · simp only [List.mem_cons, List.not_mem_nil, or_false] at hb
      rcases hb with h1 | h1 <;> omega
    · split at hb
      · simp only [List.mem_cons, List.not_mem_nil, or_false] at hb
        rcases hb with h1 | h1 | h1 <;> omega
      · simp only [List.mem_cons, List.not_mem_nil, or_false] at hb
        rcases hb with h1 | h1 | h1 | h1 <;> omega

theorem isWsByte_lt {b : Nat} (h : isWsByte b = true) : b < 0x80 := by
  simp only [isWsByte, Bool.or_eq_true, beq_iff_eq] at h
  omega

theorem utf8Bytes_length_pos (c : Char) : 0 < (utf8Bytes c).length := by
  simp only [utf8Bytes]
  split
  · simp
  · split
    · simp
    · split <;> simp

theorem decodeUtf8Fuel_charsBytes :
    ∀ (fuel : Nat) (cs : List Char), (charsBytes cs).length ≤ fuel →
      decodeUtf8Fuel fuel (charsBytes cs) = some cs := by
  intro fuel
  induction fuel with
  | zero =>
    intro cs hf
    cases cs with
    | nil => rfl
    | cons c cs' =>
      exfalso
      have hlen : (charsBytes (c :: cs')).length =
          (utf8Bytes c).length + (charsBytes cs').length := by
        show (utf8Bytes c ++ charsBytes cs').length = _
        rw [List.length_append]
      have := utf8Bytes_length_pos c
      omega
  | succ f ih =>
    intro cs hf
    cases cs with
    | nil => rfl
    | cons c cs' =>
      have hv := char_val_range c
      have hlen : (charsBytes (c :: cs')).length =
          (utf8Bytes c).length + (charsBytes cs').length := by
        show (utf8Bytes c ++ charsBytes cs').length = _
        rw [List.length_append]
      show decodeUtf8Fuel (f + 1) (utf8Bytes c ++ charsBytes cs') = _
      by_cases h1 : c.toNat < 0x80
      · have hb : utf8Bytes c = [c.toNat] := utf8Bytes_ascii h1
        rw [hb] at hlen
        rw [hb, List.singleton_append]
        unfold decodeUtf8Fuel
        rw [if_pos h1]
        rw [ih cs' (by simp only [List.length_cons, List.length_nil] at hlen; omega)]
        rw [Char.ofNat_toNat]
        rfl
      · by_cases h2 : c.toNat < 0x800
        · have hb : utf8Bytes c =
              [0xC0 + c.toNat / 64, 0x80 + c.toNat % 64] := by
            simp only [utf8Bytes]
            rw [if_neg h1, if_pos h2]
          rw [hb] at hlen
          rw [hb]
          show decodeUtf8Fuel (f + 1) ((0xC0 + c.toNat / 64) ::
            (0x80 + c.toNat % 64) :: charsBytes cs') = _
          unfold decodeUtf8Fuel
          rw [if_neg (by omega), if_neg (by omega), if_pos (by omega)]
          show (if IsContByte (0x80 + c.toNat % 64) then
              (decodeUtf8Fuel f (charsBytes cs')).map
                (fun cs => Char.ofNat ((0xC0 + c.toNat / 64 - 0xC0) * 64 +
                  (0x80 + c.toNat % 64 - 0x80)) :: cs)
            else none) = some (c :: cs')
          rw [if_pos (show IsContByte (0x80 + c.toNat % 64) from
            ⟨by omega, by omega⟩)]
          have harg : (0xC0 + c.toNat / 64 - 0xC0) * 64 +
              (0x80 + c.toNat % 64 - 0x80) = c.toNat := by omega
          rw [harg, Char.ofNat_toNat]
          rw [ih cs' (by simp only [List.length_cons, List.length_nil] at hlen; omega)]
          rfl
        · by_cases h3 : c.toNat < 0x10000
          · have hb : utf8Bytes c = [0xE0 + c.toNat / 4096,
                0x80 + (c.toNat / 64) % 64, 0x80 + c.toNat % 64] := by
              simp only [utf8Bytes]
              rw [if_neg h1, if_neg h2, if_pos h3]
            rw [hb] at hlen
            rw [hb]
            show decodeUtf8Fuel (f + 1) ((0xE0 + c.toNat / 4096) ::
              (0x80 + (c.toNat / 64) % 64) :: (0x80 + c.toNat % 64) ::
              charsBytes cs') = _
            unfold decodeUtf8Fuel
            rw [if_neg (by omega), if_neg (by omega), if_neg (by omega),
              if_pos (by omega)]
            show (if IsContByte (0x80 + (c.toNat / 64) % 64) ∧
                IsContByte (0x80 + c.toNat % 64) ∧
                0x800 ≤ (0xE0 + c.toNat / 4096 - 0xE0) * 4096 +
                  (0x80 + (c.toNat / 64) % 64 - 0x80) * 64 +
                  (0x80 + c.toNat % 64 - 0x80) ∧
                ((0xE0 + c.toNat / 4096 - 0xE0) * 4096 +
                  (0x80 + (c.toNat / 64) % 64 - 0x80) * 64 +
                  (0x80 + c.toNat % 64 - 0x80) < 0xD800 ∨
                 0xE000 ≤ (0xE0 + c.toNat / 4096 - 0xE0) * 4096 +
                  (0x80 + (c.toNat / 64) % 64 - 0x80) * 64 +
                  (0x80 + c.toNat % 64 - 0x80)) then
              (decodeUtf8Fuel f (charsBytes cs')).map
                (fun cs => Char.ofNat ((0xE0 + c.toNat / 4096 - 0xE0) * 4096 +
                  (0x80 + (c.toNat / 64) % 64 - 0x80) * 64 +
                  (0x80 + c.toNat % 64 - 0x80)) :: cs)
            else none) = some (c :: cs')
            have harg : (0xE0 + c.toNat / 4096 - 0xE0) * 4096 +
                (0x80 + (c.toNat / 64) % 64 - 0x80) * 64 +
                (0x80 + c.toNat % 64 - 0x80) = c.toNat := by omega
            rw [harg]
            rw [if_pos ⟨⟨by omega, by omega⟩, ⟨by omega, by omega⟩,
              by omega, by omega⟩]
            rw [Char.ofNat_toNat]
            rw [ih cs' (by simp only [List.length_cons, List.length_nil] at hlen; omega)]
            rfl
          · have h4 : c.toNat < 0x110000 := by omega
            have hb : utf8Bytes c = [0xF0 + c.toNat / 0x40000,
                0x80 + (c.toNat / 4096) % 64, 0x80 + (c.toNat / 64) % 64,
                0x80 + c.toNat % 64] := by
              simp only [utf8Bytes]
              rw [if_neg h1, if_neg h2, if_neg h3]
            rw [hb] at hlen
            rw [hb]
            show decodeUtf8Fuel (f + 1) ((0xF0 + c.toNat / 0x40000) ::
              (0x80 + (c.toNat / 4096) % 64) :: (0x80 + (c.toNat / 64) % 64) ::
              (0x80 + c.toNat % 64) :: charsBytes cs') = _
            unfold decodeUtf8Fuel
            rw [if_neg (by omega), if_neg (by omega), if_neg (by omega),
              if_neg (by omega), if_pos (by omega)]
            show (if IsContByte (0x80 + (c.toNat / 4096) % 64) ∧
                IsContByte (0x80 + (c.toNat / 64) % 64) ∧
                IsContByte (0x80 + c.toNat % 64) ∧
                0x10000 ≤ (0xF0 + c.toNat / 0x40000 - 0xF0) * 0x40000 +
                  (0x80 + (c.toNat / 4096) % 64 - 0x80) * 4096 +
                  (0x80 + (c.toNat / 64) % 64 - 0x80) * 64 +
                  (0x80 + c.toNat % 64 - 0x80) ∧
                (0xF0 + c.toNat / 0x40000 - 0xF0) * 0x40000 +
                  (0x80 + (c.toNat / 4096) % 64 - 0x80) * 4096 +
                  (0x80 + (c.toNat / 64) % 64 - 0x80) * 64 +
                  (0x80 + c.toNat % 64 - 0x80) < 0x110000 then
              (decodeUtf8Fuel f (charsBytes cs')).map
                (fun cs => Char.ofNat
                  ((0xF0 + c.toNat / 0x40000 - 0xF0) * 0x40000 +
                   (0x80 + (c.toNat / 4096) % 64 - 0x80) * 4096 +
                   (0x80 + (c.toNat / 64) % 64 - 0x80) * 64 +
                   (0x80 + c.toNat % 64 - 0x80)) :: cs)
            else none) = some (c :: cs')
            have harg : (0xF0 + c.toNat / 0x40000 - 0xF0) * 0x40000 +
                (0x80 + (c.toNat / 4096) % 64 - 0x80) * 4096 +
                (0x80 + (c.toNat / 64) % 64 - 0x80) * 64 +
                (0x80 + c.toNat % 64 - 0x80) = c.toNat := by omega
            rw [harg]
            rw [if_pos ⟨⟨by omega, by omega⟩, ⟨by omega, by omega⟩,
              ⟨by omega, by omega⟩, by omega, by omega⟩]
            rw [Char.ofNat_toNat]
            rw [ih cs' (by simp only [List.length_cons, List.length_nil] at hlen; omega)]
            rfl

theorem decodeUtf8_charsBytes (cs : List Char) :
    decodeUtf8 (charsBytes cs) = some cs :=
  decodeUtf8Fuel_charsBytes (charsBytes cs).length cs (Nat.le_refl _)

/-- All bytes of a non-whitespace character's encoding pass the
`[^ \n\r\t]` class. -/
theorem utf8Bytes_nonWs {c : Char} (hq : ¬ isWsByte c.toNat = true) :
    ∀ b ∈ utf8Bytes c, (fun x => !isWsByte x) b = true := by
  intro b hb
  by_cases hasc : c.toNat < 0x80
  · rw [utf8Bytes_ascii hasc, List.mem_singleton] at hb
    subst hb
    simp only [Bool.not_eq_true']
    exact Bool.not_eq_true _ ▸ (Bool.eq_false_iff.mpr hq)
  · have hge := utf8Bytes_multi_ge (by omega) b hb
    simp only [Bool.not_eq_true']
    rw [Bool.eq_false_iff]
    intro hw
    exact absurd (isWsByte_lt hw) (by omega)

/-- The byte-level whitespace scan respects character boundaries. -/
theorem takeWhile_charsBytes :
    ∀ cs : List Char,
      (charsBytes cs).takeWhile (fun x => !isWsByte x) =
        charsBytes (cs.takeWhile (fun c => !isWsByte c.toNat)) := by
  intro cs
  induction cs with
  | nil => rfl
  | cons c cs' ih =>
    show (utf8Bytes c ++ charsBytes cs').takeWhile _ = _
    by_cases hq : isWsByte c.toNat = true
    · have hlt : c.toNat < 0x80 := isWsByte_lt hq
      rw [utf8Bytes_ascii hlt, List.singleton_append]
      rw [List.takeWhile_cons_of_neg (by simp [hq])]
      rw [List.takeWhile_cons_of_neg (by simp [hq])]
      rfl
    · rw [List.takeWhile_append_of_pos (utf8Bytes_nonWs hq)]
      rw [List.takeWhile_cons_of_pos (by simp [hq])]
      show utf8Bytes c ++ _ = utf8Bytes c ++ _
      rw [ih]

/-- The byte-level whitespace scan respects character boundaries (drop
side). -/
theorem dropWhile_charsBytes :
    ∀ cs : List Char,
      (charsBytes cs).dropWhile (fun x => !isWsByte x) =
        charsBytes (cs.dropWhile (fun c => !isWsByte c.toNat)) := by
  intro cs
  induction cs with
  | nil => rfl
  | cons c cs' ih =>
    show (utf8Bytes c ++ charsBytes cs').dropWhile _ = _
    by_cases hq : isWsByte c.toNat = true
    · have hlt : c.toNat < 0x80 := isWsByte_lt hq
      rw [utf8Bytes_ascii hlt, List.singleton_append]
      rw [List.dropWhile_cons_of_neg (by simp [hq])]
      rw [List.dropWhile_cons_of_neg (by simp [hq])]
      show _ = utf8Bytes c ++ charsBytes cs'
      rw [utf8Bytes_ascii hlt, List.singleton_append]
    · rw [List.dropWhile_append_of_pos (utf8Bytes_nonWs hq)]
      rw [List.dropWhile_cons_of_pos (by simp [hq])]
      exact ih

theorem take_length_takeWhile {α : Type} (p : α → Bool) :
    ∀ l : List α, l.take (l.takeWhile p).length = l.takeWhile p := by
  intro l
  induction l with
  | nil => rfl
  | cons a l ih =>
    by_cases hp : p a = true
    · rw [List.takeWhile_cons_of_pos hp, List.length_cons, List.take_succ_cons,
        ih]
    · rw [List.takeWhile_cons_of_neg (by simp [hp])]
      rfl

theorem drop_length_takeWhile {α : Type} (p : α → Bool) :
    ∀ l : List α, l.drop (l.takeWhile p).length = l.dropWhile p := by
  intro l
  induction l with
  | nil => rfl
  | cons a l ih =>
    by_cases hp : p a = true
    · rw [List.takeWhile_cons_of_pos hp, List.length_cons, List.drop_succ_cons,
        ih, List.dropWhile_cons_of_pos hp]
    · rw [List.takeWhile_cons_of_neg (by simp [hp]),
        List.dropWhile_cons_of_neg (by simp [hp])]
      rfl

/-- A successful `https?://` prefix match decomposes the buffer into an
all-non-whitespace prefix of length `p` starting with the byte `'h'`,
followed by the remainder. -/
theorem urlPrefixLen_decomp {bs : List Nat} {p : Nat}
    (h : urlPrefixLen bs = some p) :
    ∃ pre t, bs = pre ++ t ∧ pre.length = p ∧
      (∀ b ∈ pre, isWsByte b = false) ∧ 0 < p ∧
      ∃ t0, pre = 104 :: t0 := by
  unfold urlPrefixLen at h
  split at h
  · rename_i hpre
    rw [List.isPrefixOf_iff_prefix] at hpre
    obtain ⟨t, ht⟩ := hpre
    simp only [Option.some.injEq] at h
    refine ⟨httpsBytes, t, ht.symm, ?_, by decide, by omega, ?_⟩
    · rw [← h]
      rfl
    · exact ⟨[116, 116, 112, 115, 58, 47, 47], rfl⟩
  · split at h
    · rename_i hpre
      rw [List.isPrefixOf_iff_prefix] at hpre
      obtain ⟨t, ht⟩ := hpre
      simp only [Option.some.injEq] at h
      refine ⟨httpBytes, t, ht.symm, ?_, by decide, by omega, ?_⟩
      · rw [← h]
        rfl
      · exact ⟨[116, 116, 112, 58, 47, 47], rfl⟩
    · cases h

/-- A buffer not starting with `'h'` matches no URL prefix. -/
theorem urlPrefixLen_none_of_head {b : Nat} {t : List Nat} (h : b ≠ 104) :
    urlPrefixLen (b :: t) = none := by
  unfold urlPrefixLen
  rw [if_neg ?h1, if_neg ?h2]
  case h1 =>
    intro hpre
    rw [List.isPrefixOf_iff_prefix] at hpre
    obtain ⟨t', ht⟩ := hpre
    have hh := congrArg List.head? ht
    simp only [httpsBytes, List.cons_append, List.head?_cons,
      Option.some.injEq] at hh
    exact h hh.symm
  case h2 =>
    intro hpre
    rw [List.isPrefixOf_iff_prefix] at hpre
    obtain ⟨t', ht⟩ := hpre
    have hh := congrArg List.head? ht
    simp only [httpBytes, List.cons_append, List.head?_cons,
      Option.some.injEq] at hh
    exact h hh.symm

theorem urlMatchLen_le {bs : List Nat} {p : Nat} (hp : p ≤ bs.length) :
    urlMatchLen bs p ≤ bs.length := by
  have h1 : ((bs.drop p).takeWhile (fun x => !isWsByte x)).length ≤
      (bs.drop p).length := (List.takeWhile_sublist _).length_le
  simp only [urlMatchLen, List.length_drop] at *
  omega

theorem findUrlsFuel_congr :
    ∀ (f1 f2 : Nat) (bs : List Nat) (i : Nat),
      bs.length ≤ f1 → bs.length ≤ f2 →
      findUrlsFuel f1 bs i = findUrlsFuel f2 bs i := by
  intro f1
  induction f1 with
  | zero =>
    intro f2 bs i h1 _
    cases bs with
    | nil => cases f2 <;> rfl
    | cons b bs' => simp at h1
  | succ f ih =>
    intro f2 bs i h1 h2
    cases bs with
    | nil => cases f2 <;> rfl
    | cons b bs' =>
      cases f2 with
      | zero => simp at h2
      | succ g =>
        simp only [List.length_cons] at h1 h2
        unfold findUrlsFuel
        cases hurl : urlPrefixLen (b :: bs') with
        | some p =>
          dsimp only
          congr 1
          obtain ⟨pre, t, hbs, hplen, _, hppos, _⟩ := urlPrefixLen_decomp hurl
          have hple : p ≤ (b :: bs').length := by
            rw [hbs, List.length_append, ← hplen]
            omega
          have hlen := urlMatchLen_le hple
          apply ih
          · simp only [urlMatchLen] at hlen
            simp only [List.length_drop, List.length_cons] at *
            omega
          · simp only [urlMatchLen] at hlen
            simp only [List.length_drop, List.length_cons] at *
            omega
        | none =>
          apply ih <;> omega

/-- Step equation for the scan: a match at the head. -/
theorem findUrlsAux_cons_some {b : Nat} {bs : List Nat} {p : Nat}
    (h : urlPrefixLen (b :: bs) = some p) (i : Nat) :
    findUrlsAux (b :: bs) i =
      ((b :: bs).take (urlMatchLen (b :: bs) p), i,
        i + urlMatchLen (b :: bs) p) ::
      findUrlsAux ((b :: bs).drop (urlMatchLen (b :: bs) p))
        (i + urlMatchLen (b :: bs) p) := by
  show findUrlsFuel (bs.length + 1) (b :: bs) i = _
  unfold findUrlsFuel
  rw [h]
  dsimp only
  congr 1
  apply findUrlsFuel_congr
  · obtain ⟨pre, t, hbs, hplen, _, hppos, _⟩ := urlPrefixLen_decomp h
    have hple : p ≤ (b :: bs).length := by
      rw [hbs, List.length_append, ← hplen]
      omega
    have hlen := urlMatchLen_le hple
    simp only [urlMatchLen] at hlen
    simp only [List.length_drop, List.length_cons] at *
    omega
  · exact Nat.le_refl _

/-- Step equation for the scan: no match at the head. -/
theorem findUrlsAux_cons_none {b : Nat} {bs : List Nat}
    (h : urlPrefixLen (b :: bs) = none) (i : Nat) :
    findUrlsAux (b :: bs) i = findUrlsAux bs (i + 1) := by
  show findUrlsFuel (bs.length + 1) (b :: bs) i = _
  unfold findUrlsFuel
  rw [h]
  rfl

theorem findUrlsAux_mem_aux :
    ∀ (n : Nat) (bs : List Nat) (i : Nat), bs.length ≤ n →
      ∀ (u : List Nat) (s e : Nat), (u, s, e) ∈ findUrlsAux bs i →
      i ≤ s ∧ s < e ∧ e ≤ i + bs.length ∧
        u = (bs.drop (s - i)).take (e - s) := by
  intro n
  induction n with
  | zero =>
    intro bs i hn u s e h
    cases bs with
    | nil => cases h
    | cons b bs' => simp at hn
  | succ n ih =>
    intro bs i hn u s e h
    cases bs with
    | nil => cases h
    | cons b bs' =>
      simp only [List.length_cons] at hn
      cases hurl : urlPrefixLen (b :: bs') with
      | some p =>
        rw [findUrlsAux_cons_some hurl] at h
        obtain ⟨pre, t, hbs, hplen, _, hppos, _⟩ := urlPrefixLen_decomp hurl
        have hple : p ≤ (b :: bs').length := by
          rw [hbs, List.length_append, ← hplen]
          omega
        have hlen := urlMatchLen_le hple
        have hlpos : 0 < urlMatchLen (b :: bs') p := by
          simp only [urlMatchLen]
          omega
        simp only [List.length_cons] at hlen
        rcases List.mem_cons.mp h with hhead | htail
        · rw [Prod.mk.injEq, Prod.mk.injEq] at hhead
          obtain ⟨hu, hs, he⟩ := hhead
          subst hs
          subst he
          refine ⟨Nat.le_refl _, by omega, by simp only [List.length_cons]; omega, ?_⟩
          rw [hu]
          simp
        · have hsmall : ((b :: bs').drop (urlMatchLen (b :: bs') p)).length ≤
              n := by
            simp only [List.length_drop, List.length_cons]
            omega
          have ihres := ih _ _ hsmall u s e htail
          refine ⟨by omega, ihres.2.1, ?_, ?_⟩
          · have := ihres.2.2.1
            simp only [List.length_drop, List.length_cons] at this ⊢
            omega
          · rw [ihres.2.2.2, List.drop_drop]
            have harith : urlMatchLen (b :: bs') p +
                (s - (i + urlMatchLen (b :: bs') p)) = s - i := by
              have := ihres.1
              omega
            rw [harith]
      | none =>
        rw [findUrlsAux_cons_none hurl] at h
        have ihres := ih bs' _ (by omega) u s e h
        refine ⟨by omega, ihres.2.1, ?_, ?_⟩
        · have := ihres.2.2.1
          simp only [List.length_cons]
          omega
        · rw [ihres.2.2.2]
          have hsi : s - i = (s - (i + 1)) + 1 := by
            have := ihres.1
            omega
          rw [hsi, List.drop_succ_cons]

/-- Every reported match lies within the scanned region, has positive
length, and stores exactly the byte slice `[s, e)` of the buffer. -/
theorem findUrlsAux_mem {bs : List Nat} {i : Nat} {u : List Nat} {s e : Nat}
    (h : (u, s, e) ∈ findUrlsAux bs i) :
    i ≤ s ∧ s < e ∧ e ≤ i + bs.length ∧
      u = (bs.drop (s - i)).take (e - s) :=
  findUrlsAux_mem_aux bs.length bs i (Nat.le_refl _) u s e h

/-- Matches are reported left to right without overlap. -/
theorem findUrlsAux_chain :
    ∀ (n : Nat) (bs : List Nat) (i : Nat), bs.length ≤ n →
      List.Chain' (fun a b : List Nat × Nat × Nat => a.2.2 ≤ b.2.1)
        (findUrlsAux bs i) := by
  intro n
  induction n with
  | zero =>
    intro bs i hn
    cases bs with
    | nil => exact List.chain'_nil
    | cons b bs' => simp at hn
  | succ n ih =>
    intro bs i hn
    cases bs with
    | nil => exact List.chain'_nil
    | cons b bs' =>
      simp only [List.length_cons] at hn
      cases hurl : urlPrefixLen (b :: bs') with
      | some p =>
        rw [findUrlsAux_cons_some hurl]
        obtain ⟨pre, t, hbs, hplen, _, hppos, _⟩ := urlPrefixLen_decomp hurl
        have hple : p ≤ (b :: bs').length := by
          rw [hbs, List.length_append, ← hplen]
          omega
        have hlen := urlMatchLen_le hple
        have hlpos : 0 < urlMatchLen (b :: bs') p := by
          simp only [urlMatchLen]
          omega
        simp only [List.length_cons] at hlen
        rw [List.chain'_cons']
        constructor
        · intro y hy
          obtain ⟨yu, ys, ye⟩ := y
          have hmem := List.mem_of_mem_head? hy
          exact (findUrlsAux_mem hmem).1
        · apply ih
          simp only [List.length_drop, List.length_cons]
          omega
      | none =>
        rw [findUrlsAux_cons_none hurl]
        exact ih bs' (i + 1) (by omega)

/-- Scanning past a run of non-ASCII bytes (all `≥ 0x80`) finds nothing and
only advances the offset: no URL prefix can start inside it. -/
theorem findUrlsAux_shift :
    ∀ (m z : List Nat) (j : Nat), (∀ b ∈ m, 0x80 ≤ b) →
      findUrlsAux (m ++ z) j = findUrlsAux z (j + m.length) := by
  intro m
  induction m with
  | nil =>
    intro z j _
    simp
  | cons b m' ih =>
    intro z j hge
    have hb : b ≠ 104 := by
      have := hge b (List.mem_cons_self _ _)
      omega
    rw [List.cons_append, findUrlsAux_cons_none (urlPrefixLen_none_of_head hb),
      ih z (j + 1) (fun x hx => hge x (List.mem_cons_of_mem _ hx))]
    congr 1
    simp only [List.length_cons]
    omega

/-- Every match found in the UTF-8 encoding of a character list is itself
the UTF-8 encoding of a character list: a match starts at an ASCII `'h'`
and the greedy run stops at an ASCII whitespace byte or the end, so it
covers whole characters. -/
theorem findUrlsAux_decodable :
    ∀ (n : Nat) (cs : List Char) (i : Nat), cs.length ≤ n →
      ∀ u s e, (u, s, e) ∈ findUrlsAux (charsBytes cs) i →
        ∃ ds : List Char, u = charsBytes ds := by
  intro n
  induction n with
  | zero =>
    intro cs i hn u s e h
    cases cs with
    | nil => cases h
    | cons c cs' => simp at hn
  | succ n ih =>
    intro cs i hn u s e h
    cases cs with
    | nil => cases h
    | cons c cs' =>
      simp only [List.length_cons] at hn
      by_cases hasc : c.toNat < 0x80
      · have hb : charsBytes (c :: cs') = c.toNat :: charsBytes cs' := by
          show utf8Bytes c ++ _ = _
          rw [utf8Bytes_ascii hasc, List.singleton_append]
        rw [hb] at h
        cases hurl : urlPrefixLen (c.toNat :: charsBytes cs') with
        | none =>
          rw [findUrlsAux_cons_none hurl] at h
          exact ih cs' (i + 1) (by omega) u s e h
        | some p =>
          rw [findUrlsAux_cons_some hurl] at h
          obtain ⟨pre, t, hbs, hplen, hprews, hppos, t0, hpre104⟩ :=
            urlPrefixLen_decomp hurl
          have hprepos : ∀ a ∈ pre, (fun x => !isWsByte x) a = true := by
            intro a ha
            have := hprews a ha
            simp [this]
          have htake : (c.toNat :: charsBytes cs').take (urlMatchLen
              (c.toNat :: charsBytes cs') p) =
              (c.toNat :: charsBytes cs').takeWhile (fun x => !isWsByte x) := by
            rw [hbs]
            show (pre ++ t).take (urlMatchLen (pre ++ t) p) = _
            have hdl : (pre ++ t).drop p = t := List.drop_left' hplen
            simp only [urlMatchLen, hdl]
            rw [← hplen, List.take_add, List.take_left, List.drop_left,
              take_length_takeWhile, List.takeWhile_append_of_pos hprepos]
          have hdrop : (c.toNat :: charsBytes cs').drop (urlMatchLen
              (c.toNat :: charsBytes cs') p) =
              (c.toNat :: charsBytes cs').dropWhile (fun x => !isWsByte x) := by
            rw [hbs]
            show (pre ++ t).drop (urlMatchLen (pre ++ t) p) = _
            have hdl : (pre ++ t).drop p = t := List.drop_left' hplen
            simp only [urlMatchLen, hdl]
            rw [← hplen, ← List.drop_drop, List.drop_left,
              drop_length_takeWhile, List.dropWhile_append_of_pos hprepos]
          rcases List.mem_cons.mp h with hhead | htail
          · rw [Prod.mk.injEq, Prod.mk.injEq] at hhead
            refine ⟨(c :: cs').takeWhile (fun c => !isWsByte c.toNat), ?_⟩
            rw [hhead.1, htake, ← hb, takeWhile_charsBytes]
          · have hc104 : c.toNat = 104 := by
              have hh := congrArg List.head? hbs
              rw [hpre104] at hh
              simp only [List.head?_cons, List.cons_append,
                Option.some.injEq] at hh
              exact hh
            have hqc : (fun c : Char => !isWsByte c.toNat) c = true := by
              simp only [Bool.not_eq_true']
              rw [hc104]
              decide
            have hdw : (c :: cs').dropWhile (fun c => !isWsByte c.toNat) =
                cs'.dropWhile (fun c => !isWsByte c.toNat) :=
              List.dropWhile_cons_of_pos hqc
            rw [hdrop, ← hb, dropWhile_charsBytes, hdw] at htail
            have hlen2 : (cs'.dropWhile (fun c => !isWsByte c.toNat)).length ≤
                n := by
              have := (List.dropWhile_sublist
                (l := cs') (p := fun c => !isWsByte c.toNat)).length_le
              omega
            exact ih _ _ hlen2 u s e htail
      · have hb : charsBytes (c :: cs') = utf8Bytes c ++ charsBytes cs' := rfl
        rw [hb, findUrlsAux_shift (utf8Bytes c) (charsBytes cs') i
          (utf8Bytes_multi_ge (by omega))] at h
        exact ih cs' _ (by omega) u s e h

/-- When every match is the encoding of a character list, the decoding loop
succeeds, preserves the offsets positionally, and each output entry carries
the decoded string of its match. -/
theorem decodeEntries_spec :
    ∀ L : List (List Nat × Nat × Nat),
      (∀ t ∈ L, ∃ ds : List Char, t.1 = charsBytes ds) →
      ∃ out, decodeEntries L = some out ∧
        out.map (fun o => o.2) = L.map (fun t => t.2) ∧
        ∀ o ∈ out, ∃ t, t ∈ L ∧ decodeUtf8 t.1 = some o.1.data ∧ o.2 = t.2 := by
  intro L
  induction L with
  | nil =>
    intro _
    refine ⟨[], rfl, rfl, ?_⟩
    intro o ho
    cases ho
  | cons hd rest ih =>
    intro hdec
    obtain ⟨hu, hs, he⟩ := hd
    obtain ⟨ds, hds⟩ := hdec (hu, hs, he) (List.mem_cons_self _ _)
    obtain ⟨out, hout, hmap, hcorr⟩ :=
      ih (fun t ht => hdec t (List.mem_cons_of_mem _ ht))
    have hdecode : decodeUtf8 hu = some ds := by
      rw [show hu = charsBytes ds from hds]
      exact decodeUtf8_charsBytes ds
    refine ⟨(String.mk ds, hs, he) :: out, ?_, ?_, ?_⟩
    · unfold decodeEntries
      rw [hdecode, hout]
    · simp only [List.map_cons, hmap]
    · intro o ho
      rcases List.mem_cons.mp ho with ho | ho
      · subst ho
        exact ⟨(hu, hs, he), List.mem_cons_self _ _, hdecode, rfl⟩
      · obtain ⟨t, htmem, htdec, hte⟩ := hcorr o ho
        exact ⟨t, List.mem_cons_of_mem _ htmem, htdec, hte⟩

/-- C4: every triple `(url, byteStart, byteEnd)` returned by
`extract_url_byte_positions` satisfies `byteStart < byteEnd`, both offsets
are within the UTF-8 encoding of the text, decoding the byte slice
`[byteStart, byteEnd)` of that encoding yields exactly the URL string, and
the returned spans are pairwise non-overlapping in left-to-right order
(each span ends before the next begins). -/
theorem extract_url_byte_positions_spec (text : String)
    (l : List (String × Nat × Nat))
    (hl : extract_url_byte_positions text = some l)
    (u : String) (s e : Nat) (hm : (u, s, e) ∈ l) :
    s < e ∧ e ≤ (encodeUtf8 text).length ∧
    decodeUtf8 (((encodeUtf8 text).drop s).take (e - s)) = some u.data ∧
    List.Chain' (fun a b : String × Nat × Nat => a.2.2 ≤ b.2.1) l := by
  have hdec : ∀ t ∈ findUrlsAux (encodeUtf8 text) 0,
      ∃ ds : List Char, t.1 = charsBytes ds := by
    intro t ht
    obtain ⟨tu, ts, te⟩ := t
    exact findUrlsAux_decodable text.data.length text.data 0 (Nat.le_refl _)
      tu ts te ht
  obtain ⟨out, hout, hmap, hcorr⟩ := decodeEntries_spec _ hdec
  have hlout : l = out := by
    have h2 : some l = some out := by
      rw [← hl, ← hout]
      rfl
    exact Option.some.inj h2
  subst hlout
  obtain ⟨t, htmem, htdec, hte⟩ := hcorr (u, s, e) hm
  obtain ⟨tu, ts, te⟩ := t
  simp only [Prod.mk.injEq] at hte
  obtain ⟨hts, hte'⟩ := hte
  subst hts
  subst hte'
  have hmem := findUrlsAux_mem htmem
  refine ⟨hmem.2.1, ?_, ?_, ?_⟩
  · have := hmem.2.2.1
    omega
  · have hslice := hmem.2.2.2
    have hzero : s - 0 = s := by omega
    rw [hzero] at hslice
    rw [← hslice]
    exact htdec
  · have hchain := findUrlsAux_chain (encodeUtf8 text).length
      (encodeUtf8 text) 0 (Nat.le_refl _)
    have h1 : List.Chain' (fun x y : Nat × Nat => x.2 ≤ y.1)
        ((findUrlsAux (encodeUtf8 text) 0).map (fun t => t.2)) :=
      (List.chain'_map _).mpr hchain
    rw [← hmap] at h1
    exact (List.chain'_map _).mp h1

/-- Witness for C4, at the spec's own example text. -/
theorem extract_url_byte_positions_spec_witness :
    (4 < 17 ∧ 17 ≤ (encodeUtf8 "see http://x.co/a and http://x.co/b").length ∧
      decodeUtf8 (((encodeUtf8 "see http://x.co/a and http://x.co/b").drop 4).take
        (17 - 4)) = some "http://x.co/a".data ∧
      List.Chain' (fun a b : String × Nat × Nat => a.2.2 ≤ b.2.1)
        [("http://x.co/a", 4, 17), ("http://x.co/b", 22, 35)]) ∧
    extract_url_byte_positions "see http://x.co/a and http://x.co/b" =
      some [("http://x.co/a", 4, 17), ("http://x.co/b", 22, 35)] :=
  ⟨extract_url_byte_positions_spec "see http://x.co/a and http://x.co/b"
      [("http://x.co/a", 4, 17), ("http://x.co/b", 22, 35)] (by decide)
      "http://x.co/a" 4 17 (by decide),
   by decide⟩

end Skeeter
